import Mathlib

/-!
Verification of the brain-figure compositing pipeline
(Source_viz/Align_Brain_Plot.py).

The development shallowly embeds the pixel-level operations of the script:

* crop_brain_and_make_transparent (numpy boolean-mask cropping and alpha
  synthesis, lines 21-39 of the source);
* align_multiple_brains (horizontal compositing with fractional overlap
  on a fresh RGBA canvas, lines 98-120);
* convert_all, concatenate_hemis, add_colorbar and pipeline (the drivers,
  with the external collaborators - the 3D renderer, and the plotting
  surface that rasterizes figures to PNG - taken as opaque function
  parameters, as the specification prescribes).

Machine integers do not occur: numpy pixel values are small naturals and
Python ints are unbounded.  Python floats (the overlap ratio) are
modelled as rationals; Python's int() truncation toward zero is the
function int_py below.
-/

/-- An RGB pixel of a raw screenshot (three 8-bit channels, held as
naturals). -/
structure RGB where
  r : ℕ
  g : ℕ
  b : ℕ
deriving DecidableEq, Repr

/-- An RGBA pixel of a processed, transparent image. -/
structure RGBA where
  r : ℕ
  g : ℕ
  b : ℕ
  a : ℕ
deriving DecidableEq, Repr

/-- Python's int() applied to a real number: truncation toward zero.
On rationals, computed through natural division of the numerator
magnitude by the denominator. -/
def int_py (q : ℚ) : ℤ :=
  if q < 0 then - (((-q).num.toNat / (-q).den : ℕ) : ℤ)
  else ((q.num.toNat / q.den : ℕ) : ℤ)

theorem int_py_nonneg (q : ℚ) (h : 0 ≤ q) : 0 ≤ int_py q := by
  unfold int_py
  rw [if_neg (not_lt.mpr h)]
  exact Int.ofNat_nonneg _

theorem int_py_zero : int_py 0 = 0 := by
  unfold int_py
  norm_num

/-- int_py agrees with the mathematical floor on nonnegative rationals. -/
theorem int_py_eq_floor (q : ℚ) (h : 0 ≤ q) : int_py q = ⌊q⌋ := by
  unfold int_py
  rw [if_neg (not_lt.mpr h), Rat.floor_def]
  have hnum : (q.num.toNat : ℤ) = q.num := Int.toNat_of_nonneg (Rat.num_nonneg.mpr h)
  rw [← hnum]
  norm_cast

/-- For a nonnegative rational, int_py is a lower bound (the floor
property, first half). -/
theorem int_py_le (q : ℚ) (h : 0 ≤ q) : (int_py q : ℚ) ≤ q := by
  rw [int_py_eq_floor q h]
  exact Int.floor_le q

/-- For a nonnegative rational, int_py is within one of q (the floor
property, second half). -/
theorem lt_int_py_add_one (q : ℚ) (h : 0 ≤ q) : q < int_py q + 1 := by
  rw [int_py_eq_floor q h]
  exact_mod_cast Int.lt_floor_add_one q

/-- Build the list [f 0, f 1, ..., f (n-1)].  Used to model
freshly-allocated pixel buffers written positionally. -/
def tabulate {α : Type} : ℕ → (ℕ → α) → List α
  | 0, _ => []
  | n + 1, f => f 0 :: tabulate n (fun i => f (i + 1))

theorem tabulate_length {α : Type} (n : ℕ) (f : ℕ → α) :
    (tabulate n f).length = n := by
  induction n generalizing f with
  | zero => rfl
  | succ m ih => simpa [tabulate] using ih _

theorem getD_lt {α : Type} {l : List α} {n : ℕ} {d : α} (h : n < l.length) :
    l.getD n d = l.get ⟨n, h⟩ := by
  induction l generalizing n with
  | nil => simp at h
  | cons x xs ih =>
    cases n with
    | zero => rfl
    | succ m => exact ih (by simpa using h)

theorem getD_ge {α : Type} {l : List α} {n : ℕ} {d : α} (h : l.length ≤ n) :
    l.getD n d = d := by
  induction l generalizing n with
  | nil => simp [List.getD]
  | cons x xs ih =>
    cases n with
    | zero => simp at h
    | succ m => exact ih (by simpa using h)

theorem tabulate_getD {α : Type} {n x : ℕ} (f : ℕ → α) (d : α) (h : x < n) :
    (tabulate n f).getD x d = f x := by
  induction n generalizing f x with
  | zero => omega
  | succ m ih =>
    cases x with
    | zero => rfl
    | succ k => simpa [tabulate] using ih (fun i => f (i + 1)) (by omega)

theorem getD_mem_or_eq {α : Type} (l : List α) (n : ℕ) (d : α) :
    l.getD n d ∈ l ∨ l.getD n d = d := by
  rcases lt_or_ge n l.length with h | h
  · rw [getD_lt h]; exact Or.inl (l.get_mem _ _)
  · exact Or.inr (getD_ge h)

/-- A PIL image: a width, a height and a row-major pixel buffer.  PIL
images are rectangular; width and height are carried as metadata the way
PIL's Image.size is. -/
structure PImage where
  w : ℕ
  h : ℕ
  rows : List (List RGBA)
deriving DecidableEq, Repr

/-- The pixel of an image at column x, row y (out-of-range reads return
the fully transparent black pixel; the embedding only ever reads in
range). -/
def pixAt (g : PImage) (x y : ℕ) : RGBA :=
  (g.rows.getD y []).getD x ⟨0, 0, 0, 0⟩

/-- PIL's Image.new('RGBA', (w, h)): a canvas of fully transparent
black pixels. -/
def blank (w h : ℕ) : PImage :=
  ⟨w, h, List.replicate h (List.replicate w ⟨0, 0, 0, 0⟩)⟩

theorem blank_pix (w h x y : ℕ) : pixAt (blank w h) x y = ⟨0, 0, 0, 0⟩ := by
  have step1 : (blank w h).rows.getD y [] = List.replicate w (⟨0, 0, 0, 0⟩ : RGBA) ∨
      (blank w h).rows.getD y [] = [] := by
    rcases getD_mem_or_eq (blank w h).rows y [] with hm | he
    · exact Or.inl (List.eq_of_mem_replicate hm)
    · exact Or.inr he
  unfold pixAt
  rcases step1 with h1 | h1 <;> rw [h1]
  · rcases getD_mem_or_eq (List.replicate w (⟨0, 0, 0, 0⟩ : RGBA)) x ⟨0, 0, 0, 0⟩ with hm | he
    · exact List.eq_of_mem_replicate hm
    · exact he
  · simp [List.getD]

/-- PIL's MULDIV255 rounding primitive, used by Image.paste when
blending through an 8-bit mask: (t >> 8 + t) >> 8 with t = a*b + 128. -/
def muldiv255 (a b : ℕ) : ℕ :=
  ((a * b + 128) / 256 + (a * b + 128)) / 256

/-- One channel of PIL's BLEND macro: dst weighted by (255 - m) plus
src weighted by m. -/
def blendCh (d s m : ℕ) : ℕ :=
  muldiv255 d (255 - m) + muldiv255 s m

/-- Blend a source pixel over a destination pixel, the mask value being
the source pixel's own alpha (Image.paste with the pasted image itself
as mask).  All four bands are blended. -/
def blendPix (d s : RGBA) : RGBA :=
  ⟨blendCh d.r s.r s.a, blendCh d.g s.g s.a, blendCh d.b s.b s.a, blendCh d.a s.a s.a⟩

theorem muldiv255_zero (a : ℕ) : muldiv255 a 0 = 0 := by
  unfold muldiv255
  omega

theorem muldiv255_full (a : ℕ) (h : a ≤ 255) : muldiv255 a 255 = a := by
  unfold muldiv255
  omega

theorem blendCh_full (d s : ℕ) (hs : s ≤ 255) : blendCh d s 255 = s := by
  unfold blendCh
  rw [show 255 - 255 = 0 from rfl, muldiv255_zero, muldiv255_full s hs]
  omega

theorem blendCh_none (d s : ℕ) (hd : d ≤ 255) : blendCh d s 0 = d := by
  unfold blendCh
  rw [show 255 - 0 = 255 from rfl, muldiv255_zero, muldiv255_full d hd]
  omega

/-- All four channels of a pixel fit in a byte. -/
def pixBounded (p : RGBA) : Prop :=
  p.r ≤ 255 ∧ p.g ≤ 255 ∧ p.b ≤ 255 ∧ p.a ≤ 255

/-- The alpha channel is binary: fully transparent or fully opaque.
This is what the cropping stage produces. -/
def pixBinary (p : RGBA) : Prop := p.a = 0 ∨ p.a = 255

instance (p : RGBA) : Decidable (pixBounded p) := by unfold pixBounded; infer_instance

instance (p : RGBA) : Decidable (pixBinary p) := by unfold pixBinary; infer_instance

/-- A well-formed transparent image: byte-bounded channels and a
binary alpha mask. -/
def imgOK (g : PImage) : Prop :=
  ∀ row ∈ g.rows, ∀ p ∈ row, pixBounded p ∧ pixBinary p

instance (g : PImage) : Decidable (imgOK g) := by unfold imgOK; infer_instance

theorem pixAt_ok {g : PImage} (h : imgOK g) (x y : ℕ) :
    pixBounded (pixAt g x y) ∧ pixBinary (pixAt g x y) := by
  unfold pixAt
  rcases getD_mem_or_eq g.rows y [] with hrow | hrow
  · rcases getD_mem_or_eq (g.rows.getD y []) x ⟨0, 0, 0, 0⟩ with hp | hp
    · exact h _ hrow _ hp
    · rw [hp]; exact ⟨by decide, Or.inl rfl⟩
  · rw [hrow, getD_ge (Nat.zero_le x)]
    exact ⟨by decide, Or.inl rfl⟩

theorem blendPix_covers (d s : RGBA) (hs : pixBounded s) (ha : s.a = 255) :
    blendPix d s = s := by
  obtain ⟨h1, h2, h3, h4⟩ := hs
  unfold blendPix
  rw [ha]
  cases s
  simp only at h1 h2 h3 h4 ha ⊢
  rw [ha, blendCh_full _ _ h1, blendCh_full _ _ h2, blendCh_full _ _ h3, blendCh_full _ _ (by omega)]

theorem blendPix_transparent (d s : RGBA) (hd : pixBounded d) (ha : s.a = 0) :
    blendPix d s = d := by
  obtain ⟨h1, h2, h3, h4⟩ := hd
  unfold blendPix
  rw [ha]
  cases d
  simp only at h1 h2 h3 h4 ⊢
  rw [blendCh_none _ _ h1, blendCh_none _ _ h2, blendCh_none _ _ h3, blendCh_none _ _ h4]

/-- Image.paste(src, (ox, oy), src): write src onto dst at offset
(ox, oy), each covered destination pixel blended through the source's
alpha band; pixels outside the canvas are clipped. -/
def pasteMask (dst src : PImage) (ox oy : ℤ) : PImage :=
  { w := dst.w
    h := dst.h
    rows := tabulate dst.h fun y => tabulate dst.w fun x =>
      if 0 ≤ (x : ℤ) - ox ∧ (x : ℤ) - ox < src.w ∧ 0 ≤ (y : ℤ) - oy ∧ (y : ℤ) - oy < src.h then
        blendPix (pixAt dst x y) (pixAt src ((x : ℤ) - ox).toNat ((y : ℤ) - oy).toNat)
      else pixAt dst x y }

theorem pasteMask_w (dst src : PImage) (ox oy : ℤ) : (pasteMask dst src ox oy).w = dst.w := rfl

theorem pasteMask_h (dst src : PImage) (ox oy : ℤ) : (pasteMask dst src ox oy).h = dst.h := rfl

theorem pasteMask_pix (dst src : PImage) (ox oy : ℤ) (x y : ℕ)
    (hx : x < dst.w) (hy : y < dst.h) :
    pixAt (pasteMask dst src ox oy) x y =
      if 0 ≤ (x : ℤ) - ox ∧ (x : ℤ) - ox < src.w ∧ 0 ≤ (y : ℤ) - oy ∧ (y : ℤ) - oy < src.h then
        blendPix (pixAt dst x y) (pixAt src ((x : ℤ) - ox).toNat ((y : ℤ) - oy).toNat)
      else pixAt dst x y := by
  show ((tabulate dst.h _).getD y []).getD x _ = _
  rw [tabulate_getD _ _ hy, tabulate_getD _ _ hx]

/-- The paste loop of align_multiple_brains: paste each image in order,
the image at loop index idx going to x-offset idx * step, y-offset 0. -/
def pasteAll : PImage → List PImage → ℤ → ℕ → PImage
  | canvas, [], _, _ => canvas
  | canvas, g :: rest, step, idx =>
      pasteAll (pasteMask canvas g ((idx : ℤ) * step) 0) rest step (idx + 1)

theorem pasteAll_w (imgs : List PImage) (canvas : PImage) (step : ℤ) (idx : ℕ) :
    (pasteAll canvas imgs step idx).w = canvas.w := by
  induction imgs generalizing canvas idx with
  | nil => rfl
  | cons g rest ih => simpa [pasteAll] using ih _ _

theorem pasteAll_h (imgs : List PImage) (canvas : PImage) (step : ℤ) (idx : ℕ) :
    (pasteAll canvas imgs step idx).h = canvas.h := by
  induction imgs generalizing canvas idx with
  | nil => rfl
  | cons g rest ih => simpa [pasteAll] using ih _ _

theorem pasteAll_append_singleton (xs : List PImage) (canvas g : PImage) (step : ℤ) (idx : ℕ) :
    pasteAll canvas (xs ++ [g]) step idx =
      pasteMask (pasteAll canvas xs step idx) g (((idx + xs.length : ℕ) : ℤ) * step) 0 := by
  induction xs generalizing canvas idx with
  | nil => simp [pasteAll]
  | cons z zs ih =>
    show pasteAll _ (zs ++ [g]) step (idx + 1) = _
    rw [ih]
    have harg : ((idx + 1 + zs.length : ℕ) : ℤ) = ((idx + (z :: zs).length : ℕ) : ℤ) := by
      simp only [List.length_cons]
      push_cast
      ring
    rw [harg]
    rfl

/-- The canvas width computed by align_multiple_brains:
width * count - int(overlap * width * (count - 1)), taken from the
first image (0 for the empty list, where the source instead fails with
an index error). -/
def alignTotalWidth (images : List PImage) (overlap_ratio : ℚ) : ℤ :=
  match images with
  | [] => 0
  | img0 :: _ =>
      ((img0.w * images.length : ℕ) : ℤ) -
        int_py (overlap_ratio * img0.w * ((images.length - 1 : ℕ) : ℚ))

/-- align_multiple_brains, lines 98-120 of the source: read (width,
height) from the first image, allocate a transparent RGBA canvas of the
computed total width, and paste every image at x-offset
index * (width - int(overlap * width)) with its own alpha as the paste
mask.  The conversion of matplotlib figures to PIL images (lines 82-96)
happens before this stage and is outside the pixel model; this function
receives the decoded images.  The empty list (an IndexError at
images[0] in the source) and a negative computed canvas width (a
ValueError inside Image.new) are returned as none. -/
def align_multiple_brains (images : List PImage) (overlap_ratio : ℚ) : Option PImage :=
  match images with
  | [] => none
  | img0 :: _ =>
      let total_width := alignTotalWidth images overlap_ratio
      if total_width < 0 then none
      else some (pasteAll (blank total_width.toNat img0.h) images
        ((img0.w : ℤ) - int_py (overlap_ratio * img0.w)) 0)

/-- Does image number i of the list cover column x (bands of width W
starting at multiples of step) with a fully opaque pixel at row y? -/
def bandHit (imgs : List PImage) (step W x y : ℕ) (i : ℕ) : Bool :=
  decide (i * step ≤ x) && decide (x < i * step + W) &&
    decide ((pixAt (imgs.getD i (blank 0 0)) (x - i * step) y).a = 255)

/-- The pixel that horizontal compositing leaves at (x, y): the pixel
of the image with the highest index whose band covers x with an opaque
pixel there, or the given fallback when no image wrote the position. -/
def compositeAt (imgs : List PImage) (step W x y : ℕ) (fallback : RGBA) : RGBA :=
  match (List.range imgs.length).reverse.find? (bandHit imgs step W x y) with
  | some i => pixAt (imgs.getD i (blank 0 0)) (x - i * step) y
  | none => fallback

/-- Last-write-wins reading of the composite: the fallback is the
transparent black of the fresh canvas. -/
def lastWriter (imgs : List PImage) (step W x y : ℕ) : RGBA :=
  compositeAt imgs step W x y ⟨0, 0, 0, 0⟩

theorem find?_congr_mem {α : Type} {p q : α → Bool} :
    ∀ (l : List α), (∀ a ∈ l, p a = q a) → l.find? p = l.find? q := by
  intro l
  induction l with
  | nil => intro _; rfl
  | cons a as ih =>
    intro h
    have ha := h a (by simp)
    by_cases hp : p a = true
    · rw [List.find?_cons_of_pos _ hp, List.find?_cons_of_pos _ (ha ▸ hp)]
    · rw [List.find?_cons_of_neg _ hp, List.find?_cons_of_neg _ (ha ▸ hp)]
      exact ih fun b hb => h b (by simp [hb])

theorem getD_append_length {α : Type} (xs : List α) (g d : α) :
    (xs ++ [g]).getD xs.length d = g := by
  induction xs with
  | nil => rfl
  | cons z zs ih => simpa using ih

theorem getD_append_lt {α : Type} (xs ys : List α) (i : ℕ) (d : α) (h : i < xs.length) :
    (xs ++ ys).getD i d = xs.getD i d := by
  induction xs generalizing i with
  | nil => simp at h
  | cons z zs ih =>
    cases i with
    | zero => rfl
    | succ k => simpa using ih _ (by simpa using h)

theorem compositeAt_bounded (imgs : List PImage) (stepN W x y : ℕ) (fb : RGBA)
    (hok : ∀ g ∈ imgs, imgOK g) (hfb : pixBounded fb) :
    pixBounded (compositeAt imgs stepN W x y fb) := by
  unfold compositeAt
  rcases hfind : (List.range imgs.length).reverse.find? (bandHit imgs stepN W x y) with _ | i
  · exact hfb
  · have hi : i < imgs.length := by
      have hmem := List.mem_of_find?_eq_some hfind
      rw [List.mem_reverse, List.mem_range] at hmem
      exact hmem
    have hget : imgs.getD i (blank 0 0) ∈ imgs := by
      rw [getD_lt (by simpa using hi)]
      exact imgs.get_mem _ _
    exact (pixAt_ok (hok _ hget) _ _).1

/-- Peeling the last image off the composite: the snoc image wins at
every position of its band where its alpha is 255, and every other
position shows the composite of the prefix. -/
theorem compositeAt_snoc (xs : List PImage) (g : PImage) (stepN W x y : ℕ) (fb : RGBA) :
    compositeAt (xs ++ [g]) stepN W x y fb =
      if xs.length * stepN ≤ x ∧ x < xs.length * stepN + W ∧
          (pixAt g (x - xs.length * stepN) y).a = 255
      then pixAt g (x - xs.length * stepN) y
      else compositeAt xs stepN W x y fb := by
  have hlen : (xs ++ [g]).length = xs.length + 1 := by simp
  have hrev : (List.range (xs.length + 1)).reverse = xs.length :: (List.range xs.length).reverse := by
    rw [List.range_succ, List.reverse_append]
    rfl
  have hcong : ∀ i ∈ (List.range xs.length).reverse,
      bandHit (xs ++ [g]) stepN W x y i = bandHit xs stepN W x y i := by
    intro i hi
    rw [List.mem_reverse, List.mem_range] at hi
    unfold bandHit
    rw [getD_append_lt _ _ _ _ hi]
  unfold compositeAt
  rw [hlen, hrev]
  by_cases hc : xs.length * stepN ≤ x ∧ x < xs.length * stepN + W ∧
      (pixAt g (x - xs.length * stepN) y).a = 255
  · have hbit : bandHit (xs ++ [g]) stepN W x y xs.length = true := by
      unfold bandHit
      rw [getD_append_length]
      simp only [Bool.and_eq_true, decide_eq_true_eq]
      exact ⟨⟨hc.1, hc.2.1⟩, hc.2.2⟩
    rw [List.find?_cons_of_pos _ hbit, if_pos hc]
    show pixAt ((xs ++ [g]).getD xs.length (blank 0 0)) (x - xs.length * stepN) y = _
    rw [getD_append_length]
  · have hbit : ¬ bandHit (xs ++ [g]) stepN W x y xs.length = true := by
      unfold bandHit
      rw [getD_append_length]
      simp only [Bool.and_eq_true, decide_eq_true_eq]
      intro hh
      exact hc ⟨hh.1.1, hh.1.2, hh.2⟩
    rw [List.find?_cons_of_neg _ hbit, if_neg hc, find?_congr_mem _ hcong]
    rcases hfind : (List.range xs.length).reverse.find? (bandHit xs stepN W x y) with _ | i
    · rfl
    · have hi : i < xs.length := by
        have hmem := List.mem_of_find?_eq_some hfind
        rw [List.mem_reverse, List.mem_range] at hmem
        exact hmem
      show pixAt ((xs ++ [g]).getD i (blank 0 0)) (x - i * stepN) y =
        pixAt (xs.getD i (blank 0 0)) (x - i * stepN) y
      rw [getD_append_lt _ _ _ _ hi]

/-- Pointwise reading of the paste loop under a binary alpha mask: each
canvas pixel is the pixel of the last image that covered it with full
alpha, and the original canvas pixel where no image wrote. -/
theorem pasteAll_pix (stepN W H : ℕ) (imgs : List PImage) :
    ∀ (canvas : PImage),
      (∀ g ∈ imgs, g.w = W ∧ g.h = H) →
      (∀ g ∈ imgs, imgOK g) →
      canvas.h = H →
      (∀ x y, pixBounded (pixAt canvas x y)) →
      ∀ x y, x < canvas.w → y < H →
        pixAt (pasteAll canvas imgs ((stepN : ℕ) : ℤ) 0) x y =
          compositeAt imgs stepN W x y (pixAt canvas x y) := by
  induction imgs using List.reverseRecOn with
  | nil =>
    intro canvas _ _ _ _ x y _ _
    unfold pasteAll compositeAt
    rfl
  | append_singleton xs g ih =>
    intro canvas hdims hok hch hcb x y hx hy
    have hg : g ∈ xs ++ [g] := by simp
    obtain ⟨hgw, hgh⟩ := hdims g hg
    have hgok : imgOK g := hok g hg
    have hdims2 : ∀ a ∈ xs, a.w = W ∧ a.h = H := fun a ha => hdims a (by simp [ha])
    have hok2 : ∀ a ∈ xs, imgOK a := fun a ha => hok a (by simp [ha])
    set A := pasteAll canvas xs ((stepN : ℕ) : ℤ) 0 with hA
    have hAw : A.w = canvas.w := pasteAll_w _ _ _ _
    have hAh : A.h = canvas.h := pasteAll_h _ _ _ _
    have hox : ((0 + xs.length : ℕ) : ℤ) * ((stepN : ℕ) : ℤ) = ((xs.length * stepN : ℕ) : ℤ) := by
      push_cast
      ring
    rw [pasteAll_append_singleton, ← hA, hox,
      pasteMask_pix A g _ 0 x y (by omega) (by omega),
      compositeAt_snoc]
    have hIH := ih canvas hdims2 hok2 hch hcb x y hx hy
    by_cases hcov : xs.length * stepN ≤ x ∧ x < xs.length * stepN + W
    · have hzc : 0 ≤ (x : ℤ) - ((xs.length * stepN : ℕ) : ℤ) ∧
          (x : ℤ) - ((xs.length * stepN : ℕ) : ℤ) < g.w ∧
          0 ≤ (y : ℤ) - 0 ∧ (y : ℤ) - 0 < g.h := by
        rw [hgw, hgh]
        omega
      have htn : ((x : ℤ) - ((xs.length * stepN : ℕ) : ℤ)).toNat = x - xs.length * stepN := by
        omega
      have hyn : ((y : ℤ) - 0).toNat = y := by omega
      rw [if_pos hzc, htn, hyn]
      rcases (pixAt_ok hgok (x - xs.length * stepN) y).2 with ha0 | ha255
      · rw [blendPix_transparent _ _ (hIH ▸ compositeAt_bounded xs stepN W x y _ hok2 (hcb x y)) ha0,
          if_neg (by omega), hIH]
      · rw [blendPix_covers _ _ (pixAt_ok hgok _ _).1 ha255, if_pos ⟨hcov.1, hcov.2, ha255⟩]
    · have hzc : ¬ (0 ≤ (x : ℤ) - ((xs.length * stepN : ℕ) : ℤ) ∧
          (x : ℤ) - ((xs.length * stepN : ℕ) : ℤ) < g.w ∧
          0 ≤ (y : ℤ) - 0 ∧ (y : ℤ) - 0 < g.h) := by
        rw [hgw]
        omega
      rw [if_neg hzc, if_neg (by omega), hIH]

/-- The uniform background color of a raw screenshot. -/
def whiteRGB : RGB := ⟨255, 255, 255⟩

/-- numpy (image != 255).any(-1): a pixel is non-background when any of
its channels differs from 255. -/
def nonwhite (p : RGB) : Bool :=
  decide (p.r ≠ 255) || decide (p.g ≠ 255) || decide (p.b ≠ 255)

/-- numpy nonwhite_pix.any(1): does a row contain a non-background
pixel? -/
def rowHasNonwhite (row : List RGB) : Bool := row.any nonwhite

/-- The width of the screenshot array (all rows of a numpy array have
this length). -/
def imgWidth (image : List (List RGB)) : ℕ := (image.headD []).length

/-- numpy nonwhite_pix.any(0): for each column, does any row have a
non-background pixel there? -/
def colMask (image : List (List RGB)) : List Bool :=
  tabulate (imgWidth image) fun c => image.any fun row => nonwhite (row.getD c whiteRGB)

/-- numpy boolean-mask indexing along one axis: keep exactly the
entries whose mask bit is true, in order. -/
def maskFilter {α : Type} (mask : List Bool) (xs : List α) : List α :=
  (mask.zip xs).filterMap fun bx => if bx.1 then some bx.2 else none

/-- Lines 23-31 of the source: image[nonwhite_row][:, nonwhite_col].
Row mask first, then column mask (computed on the original image). -/
def cropped_screenshot (image : List (List RGB)) : List (List RGB) :=
  (image.filter rowHasNonwhite).map (maskFilter (colMask image))

/-- Lines 36-39: the alpha channel, recomputed on the cropped image:
np.where(np.all(cropped == [255,255,255], -1), 0, 255), stacked onto
the color channels. -/
def addAlpha (p : RGB) : RGBA :=
  ⟨p.r, p.g, p.b, if p = whiteRGB then 0 else 255⟩

/-- The pixel content of crop_brain_and_make_transparent: the cropped
screenshot with the synthesized alpha channel. -/
def crop_pixels (image : List (List RGB)) : List (List RGBA) :=
  (cropped_screenshot image).map fun row => row.map addAlpha

/-- The matplotlib figure built by crop_brain_and_make_transparent:
a transparent patch, hidden axes, and the RGBA pixel grid shown with
imshow (steps 6-11 of the source). -/
structure CropFig where
  patchAlpha : ℚ
  axesVisible : Bool
  image : List (List RGBA)
deriving DecidableEq, Repr

/-- crop_brain_and_make_transparent: crop to the non-background masks,
synthesize alpha, and wrap the result in a figure with a transparent
background and no axes. -/
def crop_brain_and_make_transparent (image : List (List RGB)) : CropFig :=
  ⟨0, false, crop_pixels image⟩

/-- The crop described by the specification's words: the contiguous
sub-rectangle spanning the first to the last non-background row and
the first to the last non-background column, every pixel of that
rectangle preserved.  Stated from the spec for comparison with the
source's boolean-mask crop. -/
def boundingRectCrop (image : List (List RGB)) : List (List RGB) :=
  let rowIdx := (List.range image.length).filter fun i => rowHasNonwhite (image.getD i [])
  let colIdx := (List.range (imgWidth image)).filter fun c =>
    image.any fun row => nonwhite (row.getD c whiteRGB)
  match rowIdx.head?, rowIdx.getLast?, colIdx.head?, colIdx.getLast? with
  | some r0, some r1, some c0, some c1 =>
      ((image.drop r0).take (r1 + 1 - r0)).map fun row => (row.drop c0).take (c1 + 1 - c0)
  | _, _, _, _ => []

/-- A rectangular pixel grid of the given dimensions, as numpy arrays
are. -/
def rectGrid (image : List (List RGB)) (Wn Hn : ℕ) : Prop :=
  image.length = Hn ∧ ∀ row ∈ image, row.length = Wn

instance (image : List (List RGB)) (Wn Hn : ℕ) : Decidable (rectGrid image Wn Hn) := by
  unfold rectGrid; infer_instance

/-- The screenshot pixel at row i, column j. -/
def pixAtRGB (image : List (List RGB)) (i j : ℕ) : RGB :=
  (image.getD i []).getD j whiteRGB

theorem mem_tabulate {α : Type} {b : α} :
    ∀ {n : ℕ} {f : ℕ → α}, b ∈ tabulate n f → ∃ i, i < n ∧ b = f i := by
  intro n
  induction n with
  | zero => intro f h; simp [tabulate] at h
  | succ m ih =>
    intro f h
    rw [show tabulate (m + 1) f = f 0 :: tabulate m (fun i => f (i + 1)) from rfl,
      List.mem_cons] at h
    rcases h with h0 | hrest
    · exact ⟨0, by omega, h0⟩
    · rcases ih hrest with ⟨i, hi, hb⟩
      exact ⟨i + 1, by omega, hb⟩

theorem maskFilter_all_false {α : Type} :
    ∀ (xs : List α) (q : ℕ → Bool), (∀ j, j < xs.length → q j = false) →
      maskFilter (tabulate xs.length q) xs = [] := by
  intro xs
  induction xs with
  | nil => intro q _; rfl
  | cons a as ih =>
    intro q h
    show maskFilter (q 0 :: tabulate as.length fun i => q (i + 1)) (a :: as) = []
    unfold maskFilter
    rw [List.zip_cons_cons, List.filterMap_cons]
    have h0 : q 0 = false := h 0 (by simp)
    rw [h0]
    simpa [maskFilter] using ih (fun i => q (i + 1)) fun j hj => h (j + 1) (by simpa using hj)

theorem maskFilter_unique_true {α : Type} :
    ∀ (xs : List α) (q : ℕ → Bool) (c : ℕ) (hc : c < xs.length),
      q c = true → (∀ j, j < xs.length → j ≠ c → q j = false) →
      maskFilter (tabulate xs.length q) xs = [xs.get ⟨c, hc⟩] := by
  intro xs
  induction xs with
  | nil => intro q c hc; simp at hc
  | cons a as ih =>
    intro q c hc hqc hother
    show maskFilter (q 0 :: tabulate as.length fun i => q (i + 1)) (a :: as) = _
    unfold maskFilter
    rw [List.zip_cons_cons, List.filterMap_cons]
    cases c with
    | zero =>
      rw [hqc]
      have hrest : maskFilter (tabulate as.length fun i => q (i + 1)) as = [] :=
        maskFilter_all_false as _ fun j hj => hother (j + 1) (by simpa using hj) (by omega)
      simpa [maskFilter] using hrest
    | succ c2 =>
      have h0 : q 0 = false := hother 0 (by simp) (by omega)
      rw [h0]
      simpa [maskFilter] using
        ih (fun i => q (i + 1)) c2 (by simpa using hc) hqc
          fun j hj hne => hother (j + 1) (by simpa using hj) (by omega)

theorem maskFilter_mem {α : Type} :
    ∀ (xs : List α) (q : ℕ → Bool) (j : ℕ) (hj : j < xs.length), q j = true →
      xs.get ⟨j, hj⟩ ∈ maskFilter (tabulate xs.length q) xs := by
  intro xs
  induction xs with
  | nil => intro q j hj; simp at hj
  | cons a as ih =>
    intro q j hj hq
    show _ ∈ maskFilter (q 0 :: tabulate as.length fun i => q (i + 1)) (a :: as)
    unfold maskFilter
    rw [List.zip_cons_cons, List.filterMap_cons]
    cases j with
    | zero =>
      rw [hq]
      simp
    | succ j2 =>
      have hmem := ih (fun i => q (i + 1)) j2 (by simpa using hj) hq
      cases hq0 : q 0 <;> simp only [hq0]
      · simpa [maskFilter] using hmem
      · exact List.mem_cons_of_mem _ (by simpa [maskFilter] using hmem)

theorem filter_unique_true {α : Type} (p : α → Bool) :
    ∀ (l : List α) (r : ℕ) (hr : r < l.length),
      p (l.get ⟨r, hr⟩) = true →
      (∀ i (hi : i < l.length), i ≠ r → p (l.get ⟨i, hi⟩) = false) →
      l.filter p = [l.get ⟨r, hr⟩] := by
  intro l
  induction l with
  | nil => intro r hr; simp at hr
  | cons a as ih =>
    intro r hr hp hother
    cases r with
    | zero =>
      show List.filter p (a :: as) = [a]
      have hp0 : p a = true := hp
      rw [List.filter_cons, if_pos hp0]
      have hrest : as.filter p = [] := by
        rw [List.filter_eq_nil]
        intro b hb
        rcases List.mem_iff_get.mp hb with ⟨⟨i, hi⟩, hget⟩
        rw [← hget]
        have hne := hother (i + 1) (by simpa using hi) (by omega)
        simpa using hne
      rw [hrest]
    | succ r2 =>
      have h0 : p a = false := by
        have hne := hother 0 (by simp) (by omega)
        simpa using hne
      show List.filter p (a :: as) = [(a :: as).get ⟨r2 + 1, hr⟩]
      rw [List.filter_cons, if_neg (by simp [h0])]
      exact ih r2 (by simpa using hr) hp
        fun i hi hne => hother (i + 1) (by simpa using hi) (by omega)

/-- convert_all: map the crop stage over the raw screenshots, then
horizontally align the results with the given overlap ratio.  The
rasterization of each matplotlib figure into a PIL image (savefig into
a PNG buffer with a tight bounding box, lines 82-96 of the source) is
performed by the external plotting library; it enters the model as the
opaque parameter figToImage. -/
def convert_all (figToImage : CropFig → PImage)
    (brain_list : List (List (List RGB))) (overlap_ratio : ℚ) : Option PImage :=
  align_multiple_brains
    (brain_list.map fun screenshot => figToImage (crop_brain_and_make_transparent screenshot))
    overlap_ratio

/-- The two-row figure assembled by concatenate_hemis: an ImageGrid
with nrows_ncols=(2,1) places grid[0] in the top row and grid[1] in
the bottom row; the figure size is (math.floor(2 * ratio), 4) inches
with ratio = lh.width / lh.height computed from the first argument
(math.floor on this nonnegative ratio is modelled by int_py, which
agrees with the floor there).  The rasterization of this figure
(savefig into a PNG buffer and reopening it, steps 8-11 of the source)
is done by the external plotting library and is applied to this record
by the pipeline's vraster parameter. -/
structure VStack where
  topRow : PImage
  bottomRow : PImage
  figW : ℤ
  figH : ℕ
  axesPad : ℚ
deriving DecidableEq, Repr

/-- concatenate_hemis, lines 182-208 of the source: the layout handed
to the plotting surface. -/
def concatenate_hemis (lh rh : PImage) : VStack :=
  { topRow := lh
    bottomRow := rh
    figW := int_py (2 * ((lh.w : ℚ) / (lh.h : ℚ)))
    figH := 4
    axesPad := 1/10 }

/-- The figure assembled by add_colorbar: the composite image shown on
a hidden axis, a colorbar axis of 0.5 percent width appended on the
right and drawn by the external colorbar routine from the given
color limits, the fixed colormap and the label, and a bold fontsize-18
suptitle placed at height y=0.8 of the figure, above the image. -/
structure ColorbarFigure (α : Type) where
  shownImage : PImage
  cmap : String
  climUsed : α
  cbarLabel : String
  cbarSide : String
  cbarSizePct : ℚ
  suptitleText : String
  suptitleFontsize : ℕ
  suptitleFontweight : String
  suptitleY : ℚ
  figW : ℤ
  figH : ℕ
deriving DecidableEq, Repr

/-- A PNG file written by fig.savefig(filename + ".png",
transparent=True): its path, the transparency flag, and the figure it
rasterizes. -/
structure SavedPNG (α : Type) where
  path : String
  transparent : Bool
  figure : ColorbarFigure α
deriving DecidableEq, Repr

/-- add_colorbar, lines 254-288 of the source: build the figure, write
it to disk as a transparent PNG at filename + ".png", and return it. -/
def add_colorbar {α : Type} (clim : α) (aligned : PImage)
    (label filename caption : String) : ColorbarFigure α × SavedPNG α :=
  let fig : ColorbarFigure α :=
    { shownImage := aligned
      cmap := "inferno"
      climUsed := clim
      cbarLabel := label
      cbarSide := "right"
      cbarSizePct := 1/2
      suptitleText := caption
      suptitleFontsize := 18
      suptitleFontweight := "bold"
      suptitleY := 4/5
      figW := int_py (2 * ((aligned.w : ℚ) / (aligned.h : ℚ)))
      figH := 4 }
  (fig, { path := filename ++ ".png", transparent := true, figure := fig })

/-- The top-level pipeline, lines 320-344 of the source.

Modelled from the spec: stc_to_screenshots, the external 3D-rendering
collaborator called inside the loop, is absent from the repository;
per the external-interface contract it maps a hemisphere tag (under a
fixed stc-path, subject, surface and threshold configuration, absorbed
into the function value) to an ordered list of raw screenshots and a
color-limit configuration.  It is the opaque parameter render.  The
plotting-surface rasterizations are the opaque parameters figToImage
(for the cropped single-view figures) and vraster (for the two-row
hemisphere figure).

The loop runs over the literal list ["lh", "rh"], appending each
hemisphere's aligned composite and rebinding the loop-local clim
variable each iteration; the clim left in scope after the loop is
passed to add_colorbar. -/
def pipeline {α : Type} (render : String → List (List (List RGB)) × α)
    (figToImage : CropFig → PImage) (vraster : VStack → PImage)
    (label filename caption : String) : Option (ColorbarFigure α × SavedPNG α) :=
  let st := (["lh", "rh"]).foldl
    (fun (st : List (Option PImage) × Option α) hemi =>
      let res := render hemi
      (st.1 ++ [convert_all figToImage res.1 (1/5)], some res.2))
    ([], none)
  match st with
  | ([some lh, some rh], some clim) =>
      some (add_colorbar clim (vraster (concatenate_hemis lh rh)) label filename caption)
  | _ => none

/-- A file system: what PNG (if any) each path holds. -/
def FSystem (α : Type) := String → Option (SavedPNG α)

/-- Writing a file: the path now holds the new content, all other
paths are untouched. -/
def writeFS {α : Type} (fs : FSystem α) (f : SavedPNG α) : FSystem α :=
  fun p => if p = f.path then some f else fs p

/-- One pipeline run viewed as a file-system transformer: a successful
run writes its PNG, a failed run (an exception in the source) leaves
the file system unchanged. -/
def pipelineFS {α : Type} (render : String → List (List (List RGB)) × α)
    (figToImage : CropFig → PImage) (vraster : VStack → PImage)
    (label filename caption : String) (fs : FSystem α) : FSystem α :=
  match pipeline render figToImage vraster label filename caption with
  | some r => writeFS fs r.2
  | none => fs

/-- Replace the color-limit configuration the renderer reports for the
left hemisphere, leaving everything else unchanged. -/
def setLhClim {α : Type} (render : String → List (List (List RGB)) × α) (c : α) :
    String → List (List (List RGB)) × α :=
  fun hemi => if hemi = "lh" then ((render hemi).1, c) else render hemi

theorem nonwhite_iff (p : RGB) : nonwhite p = true ↔ p ≠ whiteRGB := by
  cases p with
  | mk r g b =>
    unfold nonwhite whiteRGB
    simp only [Bool.or_eq_true, decide_eq_true_eq, ne_eq, RGB.mk.injEq]
    tauto

theorem nonwhite_white : nonwhite whiteRGB = false := by decide

/-- When the source image is rectangular and nonempty, the width read
from its first row is the rectangle's width. -/
theorem imgWidth_eq {image : List (List RGB)} {Wn Hn : ℕ} (hrect : rectGrid image Wn Hn)
    (hne : image ≠ []) : imgWidth image = Wn := by
  cases image with
  | nil => exact absurd rfl hne
  | cons a t => exact hrect.2 a (by simp)

/-- The horizontal compositor returns an image exactly when the list is
nonempty and the computed canvas width is nonnegative; nothing else is
checked. -/
theorem align_isSome_iff (images : List PImage) (o : ℚ) :
    (align_multiple_brains images o).isSome = true ↔
      images ≠ [] ∧ 0 ≤ alignTotalWidth images o := by
  cases images with
  | nil => simp [align_multiple_brains]
  | cons g rest =>
    show (if alignTotalWidth (g :: rest) o < 0 then none
      else some (pasteAll (blank (alignTotalWidth (g :: rest) o).toNat g.h) (g :: rest)
        ((g.w : ℤ) - int_py (o * g.w)) 0)).isSome = true ↔ _
    by_cases h : alignTotalWidth (g :: rest) o < 0
    · simp [h]
    · simp [h, not_lt.mp h]

/-- C5: the vertical compositor places its first argument in the top
row and its second argument in the bottom row of the two-row layout,
and computes the figure's aspect ratio from the first argument alone:
replacing the second argument changes neither figure dimension. -/
theorem concatenate_hemis_order_spec (lh rh rh2 : PImage) :
    (concatenate_hemis lh rh).topRow = lh ∧
    (concatenate_hemis lh rh).bottomRow = rh ∧
    (concatenate_hemis lh rh).figW = int_py (2 * ((lh.w : ℚ) / (lh.h : ℚ))) ∧
    (concatenate_hemis lh rh).figW = (concatenate_hemis lh rh2).figW ∧
    (concatenate_hemis lh rh).figH = (concatenate_hemis lh rh2).figH :=
  ⟨rfl, rfl, rfl, rfl, rfl⟩

/-- C7: add_colorbar writes a transparent PNG at filename + ".png"
whose content is exactly the figure it returns to the caller; that
figure shows the supplied composite image, draws the color-scale bar
from the supplied color-limit configuration with the fixed colormap
"inferno" and the supplied label, and carries the caption as a bold
suptitle placed above the image. -/
theorem add_colorbar_spec {α : Type} (clim : α) (aligned : PImage)
    (label filename caption : String) :
    (add_colorbar clim aligned label filename caption).2.path = filename ++ ".png" ∧
    (add_colorbar clim aligned label filename caption).2.transparent = true ∧
    (add_colorbar clim aligned label filename caption).2.figure =
      (add_colorbar clim aligned label filename caption).1 ∧
    (add_colorbar clim aligned label filename caption).1.shownImage = aligned ∧
    (add_colorbar clim aligned label filename caption).1.cmap = "inferno" ∧
    (add_colorbar clim aligned label filename caption).1.climUsed = clim ∧
    (add_colorbar clim aligned label filename caption).1.cbarLabel = label ∧
    (add_colorbar clim aligned label filename caption).1.suptitleText = caption ∧
    (add_colorbar clim aligned label filename caption).1.suptitleFontweight = "bold" :=
  ⟨rfl, rfl, rfl, rfl, rfl, rfl, rfl, rfl, rfl⟩

/-- C8: for an all-background screenshot, the row mask and the column
mask are everywhere false and the crop step returns the empty pixel
grid (the 0 x 0 four-channel array) - a well-defined empty result, with
no failure in the cropping stage. -/
theorem crop_all_background_spec (image : List (List RGB))
    (h : ∀ row ∈ image, ∀ p ∈ row, p = whiteRGB) :
    (∀ row ∈ image, rowHasNonwhite row = false) ∧
    (∀ b ∈ colMask image, b = false) ∧
    crop_pixels image = [] := by
  have hrow : ∀ row ∈ image, rowHasNonwhite row = false := by
    intro row hr
    unfold rowHasNonwhite
    rw [List.any_eq_false]
    intro p hp
    rw [h row hr p hp, nonwhite_white]
    simp
  refine ⟨hrow, ?_, ?_⟩
  · intro b hb
    rcases mem_tabulate hb with ⟨c, hc, hbc⟩
    rw [hbc, List.any_eq_false]
    intro row hr
    rcases getD_mem_or_eq row c whiteRGB with hm | he
    · rw [h row hr _ hm, nonwhite_white]; simp
    · rw [he, nonwhite_white]; simp
  · unfold crop_pixels cropped_screenshot
    have hfil : image.filter rowHasNonwhite = [] := by
      rw [List.filter_eq_nil]
      intro row hr
      simp [hrow row hr]
    rw [hfil]
    rfl

theorem crop_all_background_spec_witness :
    (∀ row ∈ ([[whiteRGB, whiteRGB], [whiteRGB, whiteRGB]] : List (List RGB)),
      ∀ p ∈ row, p = whiteRGB) ∧
    crop_pixels [[whiteRGB, whiteRGB], [whiteRGB, whiteRGB]] = [] :=
  ⟨by decide, (crop_all_background_spec _ (by decide)).2.2⟩

/-- C9: the pipeline, viewed as a file-system transformer with its
external collaborators fixed, is deterministic and idempotent: a
second run with identical inputs and output path rewrites the same
pixel-identical PNG, leaving the file system exactly as after the
first run. -/
theorem pipeline_idempotent_spec {α : Type} (render : String → List (List (List RGB)) × α)
    (figToImage : CropFig → PImage) (vraster : VStack → PImage)
    (label filename caption : String) (fs : FSystem α) :
    pipelineFS render figToImage vraster label filename caption
      (pipelineFS render figToImage vraster label filename caption fs) =
    pipelineFS render figToImage vraster label filename caption fs := by
  unfold pipelineFS
  cases hp : pipeline render figToImage vraster label filename caption with
  | none => rfl
  | some r =>
    funext p
    unfold writeFS
    by_cases hpath : p = r.2.path
    · simp [hpath]
    · simp [hpath]

/-- C10: the color-limit configuration handed to the legend overlay is
exactly the one the renderer reports for the last hemisphere of the
loop, "rh"; the one reported for "lh" is overwritten by the loop and
never reaches the colorbar - replacing it changes nothing in the
pipeline's output. -/
theorem pipeline_clim_from_rh_spec {α : Type} (render : String → List (List (List RGB)) × α)
    (figToImage : CropFig → PImage) (vraster : VStack → PImage)
    (label filename caption : String) (c : α) :
    (pipeline render figToImage vraster label filename caption).map
        (fun r => r.1.climUsed) =
      (pipeline render figToImage vraster label filename caption).map
        (fun _ => (render "rh").2) ∧
    pipeline (setLhClim render c) figToImage vraster label filename caption =
      pipeline render figToImage vraster label filename caption := by
  constructor
  · unfold pipeline
    simp only [List.foldl_cons, List.foldl_nil, List.nil_append]
    cases h1 : convert_all figToImage (render "lh").1 (1/5) <;>
      cases h2 : convert_all figToImage (render "rh").1 (1/5) <;>
        simp [h1, h2, add_colorbar]
  · unfold pipeline setLhClim
    simp only [List.foldl_cons, List.foldl_nil, List.nil_append]
    norm_num
    rw [if_neg (show ¬("rh" : String) = "lh" by decide)]

theorem white_iff_channels (p : RGB) :
    p = whiteRGB ↔ (p.r = 255 ∧ p.g = 255 ∧ p.b = 255) := by
  cases p
  simp [whiteRGB]

/-- C4: the alpha channel is recomputed on the cropped image - every
cropped pixel whose three channels are all 255 gets alpha 0, every
other cropped pixel gets alpha 255; and for a rectangular input whose
only non-background pixel sits at row r, column c, the crop reduces to
the 1 x 1 grid holding exactly that pixel, opaque with alpha 255. -/
theorem crop_alpha_spec (image : List (List RGB)) (Wn Hn r c : ℕ)
    (hrect : rectGrid image Wn Hn) (hr : r < Hn) (hc : c < Wn)
    (hnw : nonwhite (pixAtRGB image r c) = true)
    (honly : ∀ i, i < Hn → ∀ j, j < Wn → ¬(i = r ∧ j = c) → pixAtRGB image i j = whiteRGB) :
    (∀ (img2 : List (List RGB)), ∀ row2 ∈ crop_pixels img2, ∀ p2 ∈ row2,
      p2.a = if p2.r = 255 ∧ p2.g = 255 ∧ p2.b = 255 then 0 else 255) ∧
    crop_pixels image =
      [[⟨(pixAtRGB image r c).r, (pixAtRGB image r c).g, (pixAtRGB image r c).b, 255⟩]] := by
  constructor
  · intro img2 row2 hrow2 p2 hp2
    unfold crop_pixels at hrow2
    rcases List.mem_map.mp hrow2 with ⟨row0, _, hmap⟩
    rw [← hmap] at hp2
    rcases List.mem_map.mp hp2 with ⟨p0, _, hpmap⟩
    rw [← hpmap]
    show (if p0 = whiteRGB then (0 : ℕ) else 255) =
      if p0.r = 255 ∧ p0.g = 255 ∧ p0.b = 255 then 0 else 255
    by_cases hw : p0 = whiteRGB
    · rw [if_pos hw, if_pos ((white_iff_channels p0).mp hw)]
    · rw [if_neg hw, if_neg (fun hcon => hw ((white_iff_channels p0).mpr hcon))]
  · have hlen : image.length = Hn := hrect.1
    have hr2 : r < image.length := by omega
    set rowR := image.get ⟨r, hr2⟩ with hrowR
    have hrmem : rowR ∈ image := image.get_mem _ _
    have hrowlen : rowR.length = Wn := hrect.2 _ hrmem
    have hc2 : c < rowR.length := by omega
    have hne : image ≠ [] := by
      intro hcon
      rw [hcon] at hr2
      simp at hr2
    have hpix : pixAtRGB image r c = rowR.get ⟨c, hc2⟩ := by
      unfold pixAtRGB
      rw [getD_lt hr2, getD_lt hc2]
    have hwhite : ∀ i j (hi : i < image.length) (hj : j < (image.get ⟨i, hi⟩).length),
        ¬(i = r ∧ j = c) → (image.get ⟨i, hi⟩).get ⟨j, hj⟩ = whiteRGB := by
      intro i j hi hj hne2
      have hjW : j < Wn := by
        have := hrect.2 _ (image.get_mem i hi)
        omega
      have := honly i (by omega) j hjW hne2
      unfold pixAtRGB at this
      rw [getD_lt hi, getD_lt hj] at this
      exact this
    have hfil : image.filter rowHasNonwhite = [rowR] := by
      apply filter_unique_true rowHasNonwhite image r hr2
      · unfold rowHasNonwhite
        refine List.any_eq_true.mpr ⟨rowR.get ⟨c, hc2⟩, List.get_mem _ c hc2, ?_⟩
        rw [← hpix]
        exact hnw
      · intro i hi hne2
        unfold rowHasNonwhite
        rw [List.any_eq_false]
        intro p hp
        rcases List.mem_iff_get.mp hp with ⟨⟨j, hj⟩, hget⟩
        rw [← hget, hwhite i j hi hj (fun hcon => hne2 hcon.1), nonwhite_white]
        simp
    have hq : ∀ j, j < rowR.length → j ≠ c →
        (image.any fun row => nonwhite (row.getD j whiteRGB)) = false := by
      intro j hj hne2
      rw [List.any_eq_false]
      intro row hrow
      rcases List.mem_iff_get.mp hrow with ⟨⟨i, hi⟩, hget⟩
      have hj2 : j < (image.get ⟨i, hi⟩).length := by
        have := hrect.2 _ (image.get_mem i hi)
        omega
      rw [← hget, getD_lt hj2, hwhite i j hi hj2 (fun hcon => hne2 hcon.2), nonwhite_white]
      simp
    have hqc : (image.any fun row => nonwhite (row.getD c whiteRGB)) = true := by
      refine List.any_eq_true.mpr ⟨rowR, hrmem, ?_⟩
      rw [getD_lt hc2, ← hpix]
      exact hnw
    have hmask : maskFilter (colMask image) rowR = [rowR.get ⟨c, hc2⟩] := by
      unfold colMask
      rw [imgWidth_eq hrect hne, ← hrowlen]
      exact maskFilter_unique_true rowR _ c hc2 hqc hq
    unfold crop_pixels cropped_screenshot
    rw [hfil, List.map_cons, List.map_nil, hmask, List.map_cons, List.map_nil,
      List.map_cons, List.map_nil, hpix]
    unfold addAlpha
    rw [if_neg ((nonwhite_iff _).mp (hpix ▸ hnw))]

theorem crop_alpha_spec_witness :
    (rectGrid [[whiteRGB, whiteRGB], [⟨0, 128, 64⟩, whiteRGB]] 2 2 ∧ 1 < 2 ∧ 0 < 2 ∧
      nonwhite (pixAtRGB [[whiteRGB, whiteRGB], [⟨0, 128, 64⟩, whiteRGB]] 1 0) = true ∧
      (∀ i, i < 2 → ∀ j, j < 2 → ¬(i = 1 ∧ j = 0) →
        pixAtRGB [[whiteRGB, whiteRGB], [⟨0, 128, 64⟩, whiteRGB]] i j = whiteRGB)) ∧
    crop_pixels [[whiteRGB, whiteRGB], [⟨0, 128, 64⟩, whiteRGB]] = [[⟨0, 128, 64, 255⟩]] :=
  ⟨⟨by decide, by decide, by decide, by decide, by decide⟩,
    (crop_alpha_spec [[whiteRGB, whiteRGB], [⟨0, 128, 64⟩, whiteRGB]] 2 2 1 0
      (by decide) (by decide) (by decide) (by decide) (by decide)).2⟩

/-- C2 fails on the source: numpy boolean-mask indexing keeps only the
rows and columns whose mask is true, so an all-background row lying
strictly between two non-background rows is removed, and the crop step
is not the contiguous minimal bounding rectangle the claim describes.
On the 3 x 1 input [[black], [white], [black]] the bounding rectangle
is the whole input but the source's crop drops the middle row. -/
theorem crop_not_bounding_rect_counterexample :
    cropped_screenshot [[⟨0, 0, 0⟩], [whiteRGB], [⟨0, 0, 0⟩]] ≠
      boundingRectCrop [[⟨0, 0, 0⟩], [whiteRGB], [⟨0, 0, 0⟩]] ∧
    boundingRectCrop [[⟨0, 0, 0⟩], [whiteRGB], [⟨0, 0, 0⟩]] =
      [[⟨0, 0, 0⟩], [whiteRGB], [⟨0, 0, 0⟩]] ∧
    cropped_screenshot [[⟨0, 0, 0⟩], [whiteRGB], [⟨0, 0, 0⟩]] = [[⟨0, 0, 0⟩], [⟨0, 0, 0⟩]] ∧
    (∃ row ∈ ([[⟨0, 0, 0⟩], [whiteRGB], [⟨0, 0, 0⟩]] : List (List RGB)),
      ∃ p ∈ row, nonwhite p = true) := by
  refine ⟨?_, by decide, by decide, by decide⟩
  decide

/-- C2 amended: for a rectangular input with at least one
non-background pixel, the crop step keeps exactly the rows and exactly
the columns that contain a non-background pixel, in order (numpy
boolean-mask selection) - not necessarily a contiguous rectangle.
Consequences proved: the crop has one row per non-background row of
the input; every non-background pixel of the input survives into the
crop; every row of the crop still contains a non-background pixel; and
the crop is nonempty. -/
theorem crop_mask_selection_spec (image : List (List RGB)) (Wn Hn : ℕ)
    (hrect : rectGrid image Wn Hn)
    (hnz : ∃ row ∈ image, ∃ p ∈ row, nonwhite p = true) :
    (cropped_screenshot image).length = image.countP rowHasNonwhite ∧
    (∀ row ∈ image, ∀ p ∈ row, nonwhite p = true →
      ∃ row2 ∈ cropped_screenshot image, p ∈ row2) ∧
    (∀ row2 ∈ cropped_screenshot image, ∃ p ∈ row2, nonwhite p = true) ∧
    cropped_screenshot image ≠ [] := by
  have hne : image ≠ [] := by
    rcases hnz with ⟨row, hrow, _⟩
    intro hcon
    rw [hcon] at hrow
    simp at hrow
  have hpres : ∀ row ∈ image, ∀ p ∈ row, nonwhite p = true →
      ∃ row2 ∈ cropped_screenshot image, p ∈ row2 := by
    intro row hrow p hp hnwp
    have hsel : row ∈ image.filter rowHasNonwhite :=
      List.mem_filter.mpr ⟨hrow, List.any_eq_true.mpr ⟨p, hp, hnwp⟩⟩
    refine ⟨maskFilter (colMask image) row, List.mem_map_of_mem _ hsel, ?_⟩
    rcases List.mem_iff_get.mp hp with ⟨⟨j, hj⟩, hget⟩
    have hrowlen : row.length = Wn := hrect.2 _ hrow
    have hqj : (image.any fun row0 => nonwhite (row0.getD j whiteRGB)) = true := by
      refine List.any_eq_true.mpr ⟨row, hrow, ?_⟩
      rw [getD_lt hj, hget]
      exact hnwp
    unfold colMask
    rw [imgWidth_eq hrect hne, ← hrowlen, ← hget]
    exact maskFilter_mem row _ j hj hqj
  refine ⟨?_, hpres, ?_, ?_⟩
  · unfold cropped_screenshot
    rw [List.length_map, ← List.countP_eq_length_filter]
  · intro row2 hrow2
    unfold cropped_screenshot at hrow2
    rcases List.mem_map.mp hrow2 with ⟨row, hsel, hmap⟩
    have hrow : row ∈ image := (List.mem_filter.mp hsel).1
    have hhas : rowHasNonwhite row = true := (List.mem_filter.mp hsel).2
    rcases List.any_eq_true.mp hhas with ⟨p, hp, hnwp⟩
    rcases List.mem_iff_get.mp hp with ⟨⟨j, hj⟩, hget⟩
    have hrowlen : row.length = Wn := hrect.2 _ hrow
    have hqj : (image.any fun row0 => nonwhite (row0.getD j whiteRGB)) = true := by
      refine List.any_eq_true.mpr ⟨row, hrow, ?_⟩
      rw [getD_lt hj, hget]
      exact hnwp
    refine ⟨p, ?_, hnwp⟩
    rw [← hmap]
    unfold colMask
    rw [imgWidth_eq hrect hne, ← hrowlen, ← hget]
    exact maskFilter_mem row _ j hj hqj
  · rcases hnz with ⟨row, hrow, p, hp, hnwp⟩
    rcases hpres row hrow p hp hnwp with ⟨row2, hrow2, _⟩
    intro hcon
    rw [hcon] at hrow2
    simp at hrow2

theorem crop_mask_selection_spec_witness :
    (rectGrid [[⟨0, 0, 0⟩], [whiteRGB], [⟨0, 0, 0⟩]] 1 3 ∧
      ∃ row ∈ ([[⟨0, 0, 0⟩], [whiteRGB], [⟨0, 0, 0⟩]] : List (List RGB)),
        ∃ p ∈ row, nonwhite p = true) ∧
    ((cropped_screenshot [[⟨0, 0, 0⟩], [whiteRGB], [⟨0, 0, 0⟩]]).length =
      ([[⟨0, 0, 0⟩], [whiteRGB], [⟨0, 0, 0⟩]] : List (List RGB)).countP rowHasNonwhite ∧
      cropped_screenshot [[⟨0, 0, 0⟩], [whiteRGB], [⟨0, 0, 0⟩]] ≠ []) :=
  ⟨⟨by decide, by decide⟩,
    ⟨(crop_mask_selection_spec [[⟨0, 0, 0⟩], [whiteRGB], [⟨0, 0, 0⟩]] 1 3
        (by decide) (by decide)).1,
      (crop_mask_selection_spec [[⟨0, 0, 0⟩], [whiteRGB], [⟨0, 0, 0⟩]] 1 3
        (by decide) (by decide)).2.2.2⟩⟩

theorem int_py_natCast (n : ℕ) : int_py ((n : ℕ) : ℚ) = n := by
  rw [int_py_eq_floor _ (by positivity)]
  exact Int.floor_natCast n

theorem align_two_overlap_isSome (g : PImage) (hw : g.w = 1) :
    (align_multiple_brains [g, g] 2).isSome = true := by
  rw [align_isSome_iff]
  refine ⟨by simp, ?_⟩
  have harg : (2 : ℚ) * (g.w : ℚ) * ((([g, g] : List PImage).length - 1 : ℕ) : ℚ) =
      ((2 : ℕ) : ℚ) := by
    rw [hw]
    norm_num
  show (0 : ℤ) ≤ ((g.w * ([g, g] : List PImage).length : ℕ) : ℤ) -
    int_py (2 * (g.w : ℚ) * ((([g, g] : List PImage).length - 1 : ℕ) : ℚ))
  rw [harg, int_py_natCast, hw]
  simp

/-- C3 fails on the source: a call with two images of different
dimensions returns a composite normally (no error of any kind), and so
does a call with an overlap ratio outside [0, 1); nothing in
align_multiple_brains validates its inputs. -/
theorem align_no_error_counterexample :
    (align_multiple_brains
      [⟨1, 1, [[⟨9, 9, 9, 255⟩]]⟩,
       ⟨2, 2, [[⟨1, 2, 3, 255⟩, ⟨1, 2, 3, 255⟩], [⟨1, 2, 3, 255⟩, ⟨1, 2, 3, 255⟩]]⟩] 0).isSome
      = true ∧
    (align_multiple_brains [⟨1, 1, [[⟨9, 9, 9, 255⟩]]⟩, ⟨1, 1, [[⟨9, 9, 9, 255⟩]]⟩] 2).isSome
      = true := by
  constructor
  · rw [align_isSome_iff]
    refine ⟨by simp, ?_⟩
    unfold alignTotalWidth
    simp [int_py_zero]
  · exact align_two_overlap_isSome ⟨1, 1, [[⟨9, 9, 9, 255⟩]]⟩ rfl

/-- C3 corrected: the source performs no input validation.  The empty
list fails with an index error while reading the first image's size
(the none case here); every nonempty list - whether or not the images
share dimensions and whether or not the overlap ratio lies in [0, 1) -
proceeds, the only possible failure being a negative computed canvas
width inside Image.new; and the composite's dimensions are taken from
the first image alone. -/
theorem align_no_validation_spec (g : PImage) (rest : List PImage) (o : ℚ) :
    align_multiple_brains [] o = none ∧
    ((align_multiple_brains (g :: rest) o).isSome = true ↔
      0 ≤ alignTotalWidth (g :: rest) o) ∧
    (0 ≤ alignTotalWidth (g :: rest) o →
      ∃ out, align_multiple_brains (g :: rest) o = some out ∧
        out.h = g.h ∧ out.w = (alignTotalWidth (g :: rest) o).toNat) := by
  refine ⟨rfl, ?_, ?_⟩
  · rw [align_isSome_iff]
    simp
  · intro htw
    refine ⟨pasteAll (blank (alignTotalWidth (g :: rest) o).toNat g.h) (g :: rest)
      ((g.w : ℤ) - int_py (o * g.w)) 0, ?_, ?_, ?_⟩
    · show (if alignTotalWidth (g :: rest) o < 0 then none
        else some (pasteAll (blank (alignTotalWidth (g :: rest) o).toNat g.h) (g :: rest)
          ((g.w : ℤ) - int_py (o * g.w)) 0)) = _
      rw [if_neg (not_lt.mpr htw)]
    · rw [pasteAll_h]
      rfl
    · rw [pasteAll_w]
      rfl

theorem align_no_validation_spec_witness :
    0 ≤ alignTotalWidth
      [⟨1, 1, [[⟨9, 9, 9, 255⟩]]⟩,
       ⟨2, 2, [[⟨1, 2, 3, 255⟩, ⟨1, 2, 3, 255⟩], [⟨1, 2, 3, 255⟩, ⟨1, 2, 3, 255⟩]]⟩] 0 ∧
    (∃ out, align_multiple_brains
        [⟨1, 1, [[⟨9, 9, 9, 255⟩]]⟩,
         ⟨2, 2, [[⟨1, 2, 3, 255⟩, ⟨1, 2, 3, 255⟩], [⟨1, 2, 3, 255⟩, ⟨1, 2, 3, 255⟩]]⟩] 0
        = some out ∧
      out.h = 1 ∧
      out.w = (alignTotalWidth
        [⟨1, 1, [[⟨9, 9, 9, 255⟩]]⟩,
         ⟨2, 2, [[⟨1, 2, 3, 255⟩, ⟨1, 2, 3, 255⟩], [⟨1, 2, 3, 255⟩, ⟨1, 2, 3, 255⟩]]⟩] 0).toNat) := by
  have htw : 0 ≤ alignTotalWidth
      [⟨1, 1, [[⟨9, 9, 9, 255⟩]]⟩,
       ⟨2, 2, [[⟨1, 2, 3, 255⟩, ⟨1, 2, 3, 255⟩], [⟨1, 2, 3, 255⟩, ⟨1, 2, 3, 255⟩]]⟩] 0 := by
    unfold alignTotalWidth
    simp [int_py_zero]
  exact ⟨htw, (align_no_validation_spec _ _ 0).2.2 htw⟩

/-- C1: for N same-size W x H images with well-formed binary alpha
masks and an overlap ratio o in [0, 1), align_multiple_brains returns
a canvas of width W*N - floor(o*W*(N-1)) and height H; within the
canvas every pixel reads as last-write-wins compositing (no blending)
of the images pasted at x-offset i * (W - floor(o*W)), y-offset 0,
each masked by its own alpha channel; for o = 0 the width is exactly
W*N and the bands of distinct images are disjoint; and for W = 100,
N = 3, o = 1/5 the width is 260 and the x-offsets are 0, 80, 160. -/
theorem align_multiple_brains_spec (imgs : List PImage) (o : ℚ) (W H : ℕ)
    (hne : imgs ≠ [])
    (hdims : ∀ g ∈ imgs, g.w = W ∧ g.h = H)
    (hok : ∀ g ∈ imgs, imgOK g)
    (ho0 : 0 ≤ o) (ho1 : o < 1) :
    ∃ out, align_multiple_brains imgs o = some out ∧
      out.w = W * imgs.length - (⌊o * W * ((imgs.length - 1 : ℕ) : ℚ)⌋).toNat ∧
      out.h = H ∧
      (∀ x y, x < out.w → y < H →
        pixAt out x y = lastWriter imgs (W - (⌊o * (W : ℚ)⌋).toNat) W x y) ∧
      (o = 0 → out.w = W * imgs.length ∧
        (∀ i j x, i < j → x < i * W + W → ¬ (j * W ≤ x))) ∧
      (W = 100 → imgs.length = 3 → o = 1/5 →
        out.w = 260 ∧
        (List.range 3).map (fun i => i * (W - (⌊o * (W : ℚ)⌋).toNat)) = [0, 80, 160]) := by
  obtain ⟨img0, rest, rfl⟩ : ∃ a l, imgs = a :: l := by
    cases imgs with
    | nil => exact absurd rfl hne
    | cons a l => exact ⟨a, l, rfl⟩
  obtain ⟨h0w, h0h⟩ := hdims img0 (by simp)
  rw [← h0w, ← h0h] at hdims ⊢
  have hqa0 : 0 ≤ o * (img0.w : ℚ) * (((img0 :: rest).length - 1 : ℕ) : ℚ) :=
    mul_nonneg (mul_nonneg ho0 (Nat.cast_nonneg _)) (Nat.cast_nonneg _)
  have hqa_le : o * (img0.w : ℚ) * (((img0 :: rest).length - 1 : ℕ) : ℚ) ≤
      ((img0.w * ((img0 :: rest).length - 1) : ℕ) : ℚ) := by
    have hform : o * (img0.w : ℚ) * (((img0 :: rest).length - 1 : ℕ) : ℚ) =
        o * ((img0.w * ((img0 :: rest).length - 1) : ℕ) : ℚ) := by
      push_cast
      ring
    rw [hform]
    exact mul_le_of_le_one_left (Nat.cast_nonneg _) (le_of_lt ho1)
  have hip0 : 0 ≤ int_py (o * (img0.w : ℚ) * (((img0 :: rest).length - 1 : ℕ) : ℚ)) :=
    int_py_nonneg _ hqa0
  have hip_le : int_py (o * (img0.w : ℚ) * (((img0 :: rest).length - 1 : ℕ) : ℚ)) ≤
      ((img0.w * ((img0 :: rest).length - 1) : ℕ) : ℤ) := by
    have h1 := int_py_le _ hqa0
    have h2 := le_trans h1 hqa_le
    exact_mod_cast h2
  have htw_def : alignTotalWidth (img0 :: rest) o =
      ((img0.w * (img0 :: rest).length : ℕ) : ℤ) -
        int_py (o * (img0.w : ℚ) * (((img0 :: rest).length - 1 : ℕ) : ℚ)) := rfl
  have hmul_le : img0.w * ((img0 :: rest).length - 1) ≤ img0.w * (img0 :: rest).length :=
    Nat.mul_le_mul_left _ (by omega)
  have htw0 : 0 ≤ alignTotalWidth (img0 :: rest) o := by
    rw [htw_def]
    omega
  have key : align_multiple_brains (img0 :: rest) o =
      some (pasteAll (blank (alignTotalWidth (img0 :: rest) o).toNat img0.h) (img0 :: rest)
        ((img0.w : ℤ) - int_py (o * img0.w)) 0) := by
    show (if alignTotalWidth (img0 :: rest) o < 0 then none
      else some (pasteAll (blank (alignTotalWidth (img0 :: rest) o).toNat img0.h) (img0 :: rest)
        ((img0.w : ℤ) - int_py (o * img0.w)) 0)) = _
    rw [if_neg (not_lt.mpr htw0)]
  have how0 : 0 ≤ o * (img0.w : ℚ) := mul_nonneg ho0 (Nat.cast_nonneg _)
  have hstep0 : 0 ≤ int_py (o * (img0.w : ℚ)) := int_py_nonneg _ how0
  have hstep_le : int_py (o * (img0.w : ℚ)) ≤ (img0.w : ℤ) := by
    have h1 := int_py_le _ how0
    have h2 : o * (img0.w : ℚ) ≤ ((img0.w : ℕ) : ℚ) :=
      mul_le_of_le_one_left (Nat.cast_nonneg _) (le_of_lt ho1)
    exact_mod_cast le_trans h1 h2
  have hstepZ : (img0.w : ℤ) - int_py (o * (img0.w : ℚ)) =
      ((img0.w - (int_py (o * (img0.w : ℚ))).toNat : ℕ) : ℤ) := by
    omega
  have hfloorW : (⌊o * (img0.w : ℚ)⌋).toNat = (int_py (o * (img0.w : ℚ))).toNat := by
    rw [int_py_eq_floor _ how0]
  have hfloorA : (⌊o * (img0.w : ℚ) * (((img0 :: rest).length - 1 : ℕ) : ℚ)⌋).toNat =
      (int_py (o * (img0.w : ℚ) * (((img0 :: rest).length - 1 : ℕ) : ℚ))).toNat := by
    rw [int_py_eq_floor _ hqa0]
  refine ⟨pasteAll (blank (alignTotalWidth (img0 :: rest) o).toNat img0.h) (img0 :: rest)
    ((img0.w : ℤ) - int_py (o * img0.w)) 0, key, ?_, ?_, ?_, ?_, ?_⟩
  · rw [pasteAll_w]
    show (alignTotalWidth (img0 :: rest) o).toNat = _
    rw [htw_def, hfloorA]
    omega
  · rw [pasteAll_h]
    rfl
  · intro x y hx hy
    rw [hstepZ, hfloorW]
    have hcv := pasteAll_pix (img0.w - (int_py (o * (img0.w : ℚ))).toNat) img0.w img0.h
      (img0 :: rest) (blank (alignTotalWidth (img0 :: rest) o).toNat img0.h)
      hdims hok rfl (fun x2 y2 => by rw [blank_pix]; decide) x y
      (by rw [pasteAll_w] at hx; exact hx) hy
    rw [hcv, blank_pix]
    rfl
  · intro ho
    subst ho
    constructor
    · rw [pasteAll_w]
      show (alignTotalWidth (img0 :: rest) 0).toNat = _
      rw [htw_def]
      rw [show (0 : ℚ) * (img0.w : ℚ) * (((img0 :: rest).length - 1 : ℕ) : ℚ) = 0 by ring,
        int_py_zero]
      omega
    · intro i j x hij hlt hge
      have hmul : (i + 1) * img0.w ≤ j * img0.w := Nat.mul_le_mul_right _ (by omega)
      have hexp : (i + 1) * img0.w = i * img0.w + img0.w := by ring
      omega
  · intro hW hN3 ho5
    subst ho5
    constructor
    · rw [pasteAll_w]
      show (alignTotalWidth (img0 :: rest) (1 / 5)).toNat = 260
      rw [htw_def, hW, hN3]
      rw [show (1 / 5 : ℚ) * ((100 : ℕ) : ℚ) * (((3 : ℕ) - 1 : ℕ) : ℚ) = ((40 : ℕ) : ℚ)
        by norm_num, int_py_natCast]
      decide
    · rw [hW]
      rw [show (⌊(1 / 5 : ℚ) * ((100 : ℕ) : ℚ)⌋ : ℤ) = 20 by norm_num]
      decide

theorem align_multiple_brains_spec_witness :
    (([⟨2, 1, [[⟨10, 0, 0, 255⟩, ⟨20, 0, 0, 0⟩]]⟩,
       ⟨2, 1, [[⟨30, 0, 0, 255⟩, ⟨40, 0, 0, 255⟩]]⟩] : List PImage) ≠ [] ∧
      (∀ g ∈ ([⟨2, 1, [[⟨10, 0, 0, 255⟩, ⟨20, 0, 0, 0⟩]]⟩,
        ⟨2, 1, [[⟨30, 0, 0, 255⟩, ⟨40, 0, 0, 255⟩]]⟩] : List PImage), g.w = 2 ∧ g.h = 1) ∧
      (∀ g ∈ ([⟨2, 1, [[⟨10, 0, 0, 255⟩, ⟨20, 0, 0, 0⟩]]⟩,
        ⟨2, 1, [[⟨30, 0, 0, 255⟩, ⟨40, 0, 0, 255⟩]]⟩] : List PImage), imgOK g) ∧
      (0 : ℚ) ≤ 0 ∧ (0 : ℚ) < 1) ∧
    (∃ out, align_multiple_brains
        [⟨2, 1, [[⟨10, 0, 0, 255⟩, ⟨20, 0, 0, 0⟩]]⟩,
         ⟨2, 1, [[⟨30, 0, 0, 255⟩, ⟨40, 0, 0, 255⟩]]⟩] 0 = some out ∧
      out.h = 1 ∧ out.w = 2 * 2) := by
  refine ⟨⟨by decide, by decide, by decide, le_refl 0, zero_lt_one⟩, ?_⟩
  obtain ⟨out, h1, _, h3, _, h5, _⟩ := align_multiple_brains_spec
    [⟨2, 1, [[⟨10, 0, 0, 255⟩, ⟨20, 0, 0, 0⟩]]⟩,
     ⟨2, 1, [[⟨30, 0, 0, 255⟩, ⟨40, 0, 0, 255⟩]]⟩] 0 2 1
    (by decide) (by decide) (by decide) (le_refl 0) zero_lt_one
  exact ⟨out, h1, h3, (h5 rfl).1⟩

theorem alignTotalWidth_singleton (g : PImage) (o : ℚ) :
    alignTotalWidth [g] o = (g.w : ℤ) := by
  show ((g.w * 1 : ℕ) : ℤ) - int_py (o * (g.w : ℚ) * ((0 : ℕ) : ℚ)) = (g.w : ℤ)
  rw [Nat.cast_zero, mul_zero, int_py_zero, Nat.mul_one]
  simp

/-- Sanity check that the modelled pipeline is not vacuous: with a
concrete renderer and concrete rasterizers it completes and produces a
figure. -/
theorem pipeline_runs_on_example :
    (pipeline (fun _ => ([[[⟨0, 0, 0⟩]]], (0 : ℕ)))
      (fun _ => ⟨1, 1, [[⟨0, 0, 0, 255⟩]]⟩)
      (fun v => v.topRow) "lbl" "out" "cap").isSome = true := by
  have hconv : (convert_all (fun _ => (⟨1, 1, [[⟨0, 0, 0, 255⟩]]⟩ : PImage))
      [[[⟨0, 0, 0⟩]]] (1 / 5)).isSome = true := by
    unfold convert_all
    rw [align_isSome_iff]
    refine ⟨by simp, ?_⟩
    rw [show ([[[⟨0, 0, 0⟩]]].map fun s =>
        (fun _ => (⟨1, 1, [[⟨0, 0, 0, 255⟩]]⟩ : PImage)) (crop_brain_and_make_transparent s)) =
      [⟨1, 1, [[⟨0, 0, 0, 255⟩]]⟩] from rfl]
    rw [alignTotalWidth_singleton]
    simp
  rcases hsome : convert_all (fun _ => (⟨1, 1, [[⟨0, 0, 0, 255⟩]]⟩ : PImage))
      [[[⟨0, 0, 0⟩]]] (1 / 5) with _ | img
  · rw [hsome] at hconv
    simp at hconv
  · unfold pipeline
    simp only [List.foldl_cons, List.foldl_nil, List.nil_append]
    rw [hsome]
    simp
